import Mathlib

/-
Shallow embedding of the OPM generic serialization engine
(src/opm/common/utility/Serializer.hpp).

The Serializer is a recursive visitor over the static shape of a value with
three operation modes (PACKSIZE, PACK, UNPACK).  We embed it as three
structurally parallel Lean functions over an explicit universe of shapes and
values:

  - packSizeVal  : the PACKSIZE pass of Serializer::operator()
  - packVal      : the PACK pass of Serializer::operator() (bytes, in order)
  - unpackVal    : the UNPACK pass of Serializer::operator(); it consumes a
                   prefix of the byte stream and returns the decoded value
                   together with the unconsumed suffix; none models a thrown
                   exception (e.g. the runtime_error of detail::make_variant).

Machine bytes are abstracted as Nat; the leaf-level Packer is an abstract
structure whose pack / unpack / packSize fields model the byte-exact
primitive codec the C++ Serializer delegates to.  Bool leaves written by the
optional / pointer handlers are encoded as the Nat values 1 and 0.

Shapes covered: scalar leaf, pair/tuple, self-describing composite
(serializeOp types, e.g. AquiferConfig::serializeOp, which apply the
serializer to each member in a fixed order - modelled as an obj shape with a
field list), vector, map, set, optional, owning pointer (unique_ptr or
shared_ptr via Serializer::ptr), and variant.
-/

namespace OPM

/-- Static shapes of serializable values: the mutually exclusive cases of the
if-constexpr dispatch chain in Serializer::operator(). -/
inductive Shape where
  | leaf : Shape
  | tup (ss : List Shape) : Shape
  | obj (ss : List Shape) : Shape
  | vec (s : Shape) : Shape
  | map (k v : Shape) : Shape
  | set (s : Shape) : Shape
  | opt (s : Shape) : Shape
  | ptr (s : Shape) : Shape
  | var (ss : List Shape) : Shape

/-- Runtime values of the serializable universe.  A leaf carries its abstract
primitive payload; map carries its entries in iteration order; var carries the
zero-based active alternative index plus the active payload. -/
inductive Val where
  | leaf (n : Nat) : Val
  | tup (vs : List Val) : Val
  | obj (vs : List Val) : Val
  | vec (vs : List Val) : Val
  | map (es : List (Val × Val)) : Val
  | set (xs : List Val) : Val
  | opt (o : Option Val) : Val
  | ptr (o : Option Val) : Val
  | var (i : Nat) (v : Val) : Val

mutual

/-- Boolean equality of values (structural equality; on map entry lists it is
order-sensitive, matching equality of the serialized containers). -/
def Val.beq : Val → Val → Bool
  | .leaf a, .leaf b => a == b
  | .tup as, .tup bs => beqList as bs
  | .obj as, .obj bs => beqList as bs
  | .vec as, .vec bs => beqList as bs
  | .map as, .map bs => beqEntries as bs
  | .set as, .set bs => beqList as bs
  | .opt a, .opt b => beqOpt a b
  | .ptr a, .ptr b => beqOpt a b
  | .var i a, .var j b => i == j && Val.beq a b
  | _, _ => false
termination_by a b => (sizeOf a, 0)

/-- Pointwise boolean equality of value lists. -/
def beqList : List Val → List Val → Bool
  | [], [] => true
  | a :: as, b :: bs => Val.beq a b && beqList as bs
  | _, _ => false
termination_by as bs => (sizeOf as, 1)

/-- Pointwise boolean equality of map entry lists. -/
def beqEntries : List (Val × Val) → List (Val × Val) → Bool
  | [], [] => true
  | (k1, v1) :: as, (k2, v2) :: bs =>
      Val.beq k1 k2 && Val.beq v1 v2 && beqEntries as bs
  | _, _ => false
termination_by as bs => (sizeOf as, 1)

/-- Boolean equality of optional values. -/
def beqOpt : Option Val → Option Val → Bool
  | none, none => true
  | some a, some b => Val.beq a b
  | _, _ => false
termination_by a b => (sizeOf a, 1)

end

instance : BEq Val := ⟨Val.beq⟩

theorem sizeOf_fst_lt (e : Val × Val) : sizeOf e.1 < sizeOf e := by
  obtain ⟨x, y⟩ := e; simp; omega

theorem sizeOf_snd_lt (e : Val × Val) : sizeOf e.2 < sizeOf e := by
  obtain ⟨x, y⟩ := e; simp

theorem beqList_iff_of (as : List Val)
    (IH : ∀ x ∈ as, ∀ b, (Val.beq x b = true ↔ x = b)) :
    ∀ bs, (beqList as bs = true ↔ as = bs) := by
  induction as with
  | nil => intro bs; cases bs <;> simp [beqList]
  | cons a as ihl =>
      intro bs
      cases bs with
      | nil => simp [beqList]
      | cons b bs =>
          simp only [beqList, Bool.and_eq_true, IH a (by simp) b,
            ihl (fun x hx b => IH x (by simp [hx]) b) bs, List.cons.injEq]

theorem beqEntries_iff_of (as : List (Val × Val))
    (IH : ∀ e ∈ as, (∀ b, Val.beq e.1 b = true ↔ e.1 = b) ∧
                    (∀ b, Val.beq e.2 b = true ↔ e.2 = b)) :
    ∀ bs, (beqEntries as bs = true ↔ as = bs) := by
  induction as with
  | nil => intro bs; cases bs <;> simp [beqEntries]
  | cons a as ihl =>
      intro bs
      obtain ⟨k1, v1⟩ := a
      cases bs with
      | nil => simp [beqEntries]
      | cons b bs =>
          obtain ⟨k2, v2⟩ := b
          simp only [beqEntries, Bool.and_eq_true,
            (IH (k1, v1) (by simp)).1 k2, (IH (k1, v1) (by simp)).2 v2,
            ihl (fun e he => IH e (by simp [he])) bs,
            List.cons.injEq, Prod.mk.injEq, and_assoc]

theorem beqOpt_iff_of (ao : Option Val)
    (IH : ∀ x, ao = some x → ∀ b, (Val.beq x b = true ↔ x = b)) :
    ∀ bo, (beqOpt ao bo = true ↔ ao = bo) := by
  cases ao with
  | none => intro bo; cases bo <;> simp [beqOpt]
  | some a =>
      intro bo
      cases bo with
      | none => simp [beqOpt]
      | some b => simp only [beqOpt, IH a rfl b, Option.some.injEq]

theorem beq_iff_aux :
    ∀ (N : Nat) (a : Val), sizeOf a < N → ∀ b, (Val.beq a b = true ↔ a = b) := by
  intro N
  induction N with
  | zero => intro a ha; exact absurd ha (Nat.not_lt_zero _)
  | succ N ih =>
    intro a ha b
    rcases a with n | as | as | as | aes | as | ao | ao | ⟨i, x⟩ <;>
      rcases b with m | bs | bs | bs | bes | bs | bo | bo | ⟨j, y⟩ <;>
      simp only [Val.beq] <;> try simp
    · exact beqList_iff_of as
        (fun z hz b => ih z (by have := List.sizeOf_lt_of_mem hz; simp at ha; omega) b) bs
    · exact beqList_iff_of as
        (fun z hz b => ih z (by have := List.sizeOf_lt_of_mem hz; simp at ha; omega) b) bs
    · exact beqList_iff_of as
        (fun z hz b => ih z (by have := List.sizeOf_lt_of_mem hz; simp at ha; omega) b) bs
    · exact beqEntries_iff_of aes
        (fun e he =>
          ⟨fun b => ih e.1 (by
              have h1 := List.sizeOf_lt_of_mem he
              have h2 := sizeOf_fst_lt e
              simp at ha; omega) b,
           fun b => ih e.2 (by
              have h1 := List.sizeOf_lt_of_mem he
              have h2 := sizeOf_snd_lt e
              simp at ha; omega) b⟩) bes
    · exact beqList_iff_of as
        (fun z hz b => ih z (by have := List.sizeOf_lt_of_mem hz; simp at ha; omega) b) bs
    · exact beqOpt_iff_of ao
        (fun z hz b => ih z (by subst hz; simp at ha; omega) b) bo
    · exact beqOpt_iff_of ao
        (fun z hz b => ih z (by subst hz; simp at ha; omega) b) bo
    · simp [ih x (by simp at ha; omega) y]

theorem Val.beq_iff (a b : Val) : (Val.beq a b = true) ↔ a = b :=
  beq_iff_aux (sizeOf a + 1) a (Nat.lt_succ_self _) b

instance : LawfulBEq Val :=
  ⟨fun h => (Val.beq_iff _ _).1 h, fun {a} => (Val.beq_iff a a).2 rfl⟩

instance : DecidableEq Val :=
  fun a b => decidable_of_iff (Val.beq a b = true) (Val.beq_iff a b)

/-- Abstract leaf-level Packer (the template parameter of Serializer):
packSize sizes one primitive, pack encodes it to bytes, unpack decodes the
first primitive from a byte stream, returning it with the remaining bytes
(none models a leaf-level decode failure such as a truncated buffer). -/
structure Packer where
  packSize : Nat → Nat
  pack : Nat → List Nat
  unpack : List Nat → Option (Nat × List Nat)

/-- The Packer-level hypothesis of the round-trip law: unpack inverts pack on
every primitive leaf, leaving later bytes untouched. -/
def PackerInverts (P : Packer) : Prop :=
  ∀ (n : Nat) (rest : List Nat), P.unpack (P.pack n ++ rest) = some (n, rest)

/-- The Packer-level hypothesis of the size-precomputation law: packSize of a
leaf equals the number of bytes its pack writes. -/
def PackerSizeExact (P : Packer) : Prop :=
  ∀ n : Nat, P.packSize n = (P.pack n).length

mutual

/-- Default-constructed value of a shape: numeric zero, empty containers,
empty optional, null pointer, and for a variant the first alternative
default-constructed (std::variant default construction). -/
def defaultVal : Shape → Val
  | .leaf => .leaf 0
  | .tup ss => .tup (defaultList ss)
  | .obj ss => .obj (defaultList ss)
  | .vec _ => .vec []
  | .map _ _ => .map []
  | .set _ => .set []
  | .opt _ => .opt none
  | .ptr _ => .ptr none
  | .var [] => .var 0 (.leaf 0)
  | .var (s :: _) => .var 0 (defaultVal s)

/-- Componentwise defaults of a shape list (tuple / composite members). -/
def defaultList : List Shape → List Val
  | [] => []
  | s :: ss => defaultVal s :: defaultList ss

end

/-- Membership test of a key among the keys of a map entry list (the lookup
std::map::insert performs before deciding to insert). -/
def keyMem (k : Val) (es : List (Val × Val)) : Bool :=
  es.any (fun e => e.1 == k)

/-- Native deduplicating insert of std::map / std::unordered_map: a colliding
key leaves the container unchanged (the existing entry wins); a fresh key is
added. -/
def insertEntry (es : List (Val × Val)) (k v : Val) : List (Val × Val) :=
  if keyMem k es then es else es ++ [(k, v)]

/-- Membership test of an element in a set element list. -/
def elemMem (x : Val) (xs : List Val) : Bool :=
  xs.any (fun y => y == x)

/-- Native deduplicating insert of std::set / std::unordered_set. -/
def insertElem (xs : List Val) (x : Val) : List Val :=
  if elemMem x xs then xs else xs ++ [x]

/-- Keys of a map entry list are pairwise distinct (the std::map invariant). -/
def distinctKeys : List (Val × Val) → Bool
  | [] => true
  | e :: es => !keyMem e.1 es && distinctKeys es

/-- Elements of a set element list are pairwise distinct. -/
def distinctElems : List Val → Bool
  | [] => true
  | x :: xs => !elemMem x xs && distinctElems xs

mutual

/-- Well-typedness of a value at a shape, including the container invariants
(distinct map keys, distinct set elements, variant index in range) that every
value of the corresponding C++ type satisfies. -/
def hasShape : Shape → Val → Bool
  | .leaf, .leaf _ => true
  | .tup ss, .tup vs => hasShapeList ss vs
  | .obj ss, .obj vs => hasShapeList ss vs
  | .vec s, .vec vs => hasShapeHom s vs
  | .map k v, .map es => hasShapeEntries k v es && distinctKeys es
  | .set s, .set xs => hasShapeHom s xs && distinctElems xs
  | .opt _, .opt none => true
  | .opt s, .opt (some x) => hasShape s x
  | .ptr _, .ptr none => true
  | .ptr s, .ptr (some x) => hasShape s x
  | .var ss, .var i x => hasShapeAlt ss i x
  | _, _ => false
termination_by s v => (sizeOf v, sizeOf s)

/-- Pointwise well-typedness of tuple / composite components. -/
def hasShapeList : List Shape → List Val → Bool
  | [], [] => true
  | s :: ss, v :: vs => hasShape s v && hasShapeList ss vs
  | _, _ => false
termination_by ss vs => (sizeOf vs, sizeOf ss)

/-- Well-typedness of every element of a homogeneous list. -/
def hasShapeHom (s : Shape) : List Val → Bool
  | [] => true
  | v :: vs => hasShape s v && hasShapeHom s vs
termination_by vs => (sizeOf vs, sizeOf s)

/-- Well-typedness of every entry of a map entry list. -/
def hasShapeEntries (k v : Shape) : List (Val × Val) → Bool
  | [] => true
  | (ek, ev) :: es => hasShape k ek && hasShape v ev && hasShapeEntries k v es
termination_by es => (sizeOf es, sizeOf k + sizeOf v)

/-- Well-typedness of a variant payload at alternative index i; false when the
index is out of the statically known range. -/
def hasShapeAlt : List Shape → Nat → Val → Bool
  | [], _, _ => false
  | s :: _, 0, x => hasShape s x
  | _ :: ss, i + 1, x => hasShapeAlt ss i x
termination_by ss i x => (sizeOf x, sizeOf ss)

end

mutual

/-- The PACKSIZE pass of Serializer::operator(): the byte count accumulated
into m_packSize for one value.  Each branch mirrors the corresponding
handler: tuple and serializeOp composites sum their members with no arity
prefix; vector, map and set add the packSize of their size_t count and of
each element (the POD contiguous-block overload of the Packer sizes a run
exactly as the per-element calls do, per the Packer contract); optional and
pointer add a bool flag (1 / 0) and, when present, the payload; variant adds
its size_t index and the sized active alternative (std::visit).  A
shape-value mismatch (unreachable from typed C++ callers) contributes 0. -/
def packSizeVal (P : Packer) : Shape → Val → Nat
  | .leaf, .leaf n => P.packSize n
  | .tup ss, .tup vs => packSizeList P ss vs
  | .obj ss, .obj vs => packSizeList P ss vs
  | .vec s, .vec vs => P.packSize vs.length + packSizeHom P s vs
  | .map k v, .map es => P.packSize es.length + packSizeEntries P k v es
  | .set s, .set xs => P.packSize xs.length + packSizeHom P s xs
  | .opt _, .opt none => P.packSize 0
  | .opt s, .opt (some x) => P.packSize 1 + packSizeVal P s x
  | .ptr _, .ptr none => P.packSize 0
  | .ptr s, .ptr (some x) => P.packSize 1 + packSizeVal P s x
  | .var ss, .var i x => P.packSize i + packSizeAlt P ss i x
  | _, _ => 0
termination_by s v => (sizeOf v, sizeOf s)

/-- PACKSIZE of tuple / composite members in declared order. -/
def packSizeList (P : Packer) : List Shape → List Val → Nat
  | [], _ => 0
  | _, [] => 0
  | s :: ss, v :: vs => packSizeVal P s v + packSizeList P ss vs
termination_by ss vs => (sizeOf vs, sizeOf ss)

/-- PACKSIZE of the elements of a vector or set in iteration order. -/
def packSizeHom (P : Packer) (s : Shape) : List Val → Nat
  | [] => 0
  | v :: vs => packSizeVal P s v + packSizeHom P s vs
termination_by vs => (sizeOf vs, sizeOf s)

/-- PACKSIZE of map entries in iteration order; each entry is dispatched as a
key-value pair (the pair handler visits first then second). -/
def packSizeEntries (P : Packer) (k v : Shape) : List (Val × Val) → Nat
  | [] => 0
  | (ek, ev) :: es =>
      packSizeVal P k ek + packSizeVal P v ev + packSizeEntries P k v es
termination_by es => (sizeOf es, sizeOf k + sizeOf v)

/-- PACKSIZE of the active variant alternative: std::visit applies the
serializer to the payload at its own static type.  Out of range (impossible
for a C++ variant value) contributes 0. -/
def packSizeAlt (P : Packer) : List Shape → Nat → Val → Nat
  | [], _, _ => 0
  | s :: _, 0, x => packSizeVal P s x
  | _ :: ss, i + 1, x => packSizeAlt P ss i x
termination_by ss i x => (sizeOf x, sizeOf ss)

end

mutual

/-- The PACK pass of Serializer::operator(): the bytes written for one value,
in writing order (each Packer::pack call appends at the advancing cursor).
Branch-for-branch parallel to packSizeVal; the bool flags of optional and
pointer are written as the leaf values 1 / 0, sizes and variant indices as
leaf values. -/
def packVal (P : Packer) : Shape → Val → List Nat
  | .leaf, .leaf n => P.pack n
  | .tup ss, .tup vs => packList P ss vs
  | .obj ss, .obj vs => packList P ss vs
  | .vec s, .vec vs => P.pack vs.length ++ packHom P s vs
  | .map k v, .map es => P.pack es.length ++ packEntries P k v es
  | .set s, .set xs => P.pack xs.length ++ packHom P s xs
  | .opt _, .opt none => P.pack 0
  | .opt s, .opt (some x) => P.pack 1 ++ packVal P s x
  | .ptr _, .ptr none => P.pack 0
  | .ptr s, .ptr (some x) => P.pack 1 ++ packVal P s x
  | .var ss, .var i x => P.pack i ++ packAlt P ss i x
  | _, _ => []
termination_by s v => (sizeOf v, sizeOf s)

/-- PACK of tuple / composite members in declared order (no arity prefix). -/
def packList (P : Packer) : List Shape → List Val → List Nat
  | [], _ => []
  | _, [] => []
  | s :: ss, v :: vs => packVal P s v ++ packList P ss vs
termination_by ss vs => (sizeOf vs, sizeOf ss)

/-- PACK of the elements of a vector or set in iteration order. -/
def packHom (P : Packer) (s : Shape) : List Val → List Nat
  | [] => []
  | v :: vs => packVal P s v ++ packHom P s vs
termination_by vs => (sizeOf vs, sizeOf s)

/-- PACK of map entries in iteration order, each as key then mapped value. -/
def packEntries (P : Packer) (k v : Shape) : List (Val × Val) → List Nat
  | [] => []
  | (ek, ev) :: es =>
      packVal P k ek ++ packVal P v ev ++ packEntries P k v es
termination_by es => (sizeOf es, sizeOf k + sizeOf v)

/-- PACK of the active variant alternative (std::visit on the stored value). -/
def packAlt (P : Packer) : List Shape → Nat → Val → List Nat
  | [], _, _ => []
  | s :: _, 0, x => packVal P s x
  | _ :: ss, i + 1, x => packAlt P ss i x
termination_by ss i x => (sizeOf x, sizeOf ss)

end

theorem Shape.sizeOf_pos (s : Shape) : 0 < sizeOf s := by
  cases s <;> simp_arith

/-- The std::vector::resize the UNPACK vector handler performs on the
destination before reading elements in place: the first n old elements are
kept as read targets, new slots are default-constructed. -/
def resizePriors (s : Shape) (old : List Val) (n : Nat) : List Val :=
  old.take n ++ List.replicate (n - old.length) (defaultVal s)

/-- Components of a tuple destination (read targets of tuple_call). -/
def tupPriors : Val → List Val
  | .tup vs => vs
  | _ => []

/-- Members of a serializeOp composite destination. -/
def objPriors : Val → List Val
  | .obj vs => vs
  | _ => []

/-- Elements of a vector destination before its resize. -/
def vecPriors : Val → List Val
  | .vec vs => vs
  | _ => []

/-- Entries already present in a map destination (never cleared by UNPACK). -/
def mapPriors : Val → List (Val × Val)
  | .map es => es
  | _ => []

/-- Elements already present in a set destination (never cleared by UNPACK). -/
def setPriors : Val → List Val
  | .set xs => xs
  | _ => []

/-- The pointee a pointer destination currently owns, if any. -/
def ptrPrior : Val → Option Val
  | .ptr (some p) => some p
  | _ => none

mutual

/-- The UNPACK pass of Serializer::operator().  The destination value prior
(the in-place read target C++ mutates through const_cast) is passed
explicitly; the byte stream is consumed from the front (the advancing
m_position cursor) and the unread suffix is returned.  none models an
exception aborting the unpack (the runtime_error of detail::make_variant, or
a Packer leaf failure on a truncated buffer).

Branches, in the dispatch order of operator():
ptr: reads the bool flag; a true flag resets the destination to a fresh
default-constructed pointee (reset(new T1)) and reads into it; a false flag
leaves the destination untouched, after which the handler reads into the
still-owned pointee whenever the destination was already non-null (the
trailing if (data) dispatch).
tuple / obj: members are read in place in declared order (tuple_call /
serializeOp).  variant: reads the index, replaces the destination with
make_variant of that index (default payload; out of range throws), then
visit-reads into the fresh payload; the prior destination is discarded.
optional: reads the flag; true default-constructs a T, reads into it and
assigns; false leaves the destination as it was.  vector: reads the count,
resizes the destination, reads elements in place (the POD block overload
decodes to the identical per-element representation, per the Packer
contract; the vector of bool path clears and re-reads per element, which on
the same stream produces the same elements).  map / set: read the count,
then count times default-construct an entry, read it and insert it with the
container's native deduplicating insert; the destination is not cleared
first. -/
def unpackVal (P : Packer) : Shape → Val → List Nat → Option (Val × List Nat)
  | .leaf, _, buf =>
      match P.unpack buf with
      | none => none
      | some (n, r) => some (.leaf n, r)
  | .tup ss, prior, buf =>
      match unpackList P ss (tupPriors prior) buf with
      | none => none
      | some (xs, r) => some (.tup xs, r)
  | .obj ss, prior, buf =>
      match unpackList P ss (objPriors prior) buf with
      | none => none
      | some (xs, r) => some (.obj xs, r)
  | .vec s, prior, buf =>
      match P.unpack buf with
      | none => none
      | some (n, r) =>
          match unpackHom P s (resizePriors s (vecPriors prior) n) r with
          | none => none
          | some (xs, r2) => some (.vec xs, r2)
  | .map k v, prior, buf =>
      match P.unpack buf with
      | none => none
      | some (n, r) =>
          match unpackEntries P k v n (mapPriors prior) r with
          | none => none
          | some (es, r2) => some (.map es, r2)
  | .set s, prior, buf =>
      match P.unpack buf with
      | none => none
      | some (n, r) =>
          match unpackElems P s n (setPriors prior) r with
          | none => none
          | some (xs, r2) => some (.set xs, r2)
  | .opt s, prior, buf =>
      match P.unpack buf with
      | none => none
      | some (n, r) =>
          if n ≠ 0 then
            match unpackVal P s (defaultVal s) r with
            | none => none
            | some (x, r2) => some (.opt (some x), r2)
          else
            some (prior, r)
  | .ptr s, prior, buf =>
      match P.unpack buf with
      | none => none
      | some (n, r) =>
          if n ≠ 0 then
            match unpackVal P s (defaultVal s) r with
            | none => none
            | some (x, r2) => some (.ptr (some x), r2)
          else
            match ptrPrior prior with
            | some p =>
                match unpackVal P s p r with
                | none => none
                | some (x, r2) => some (.ptr (some x), r2)
            | none => some (.ptr none, r)
  | .var ss, _, buf =>
      match P.unpack buf with
      | none => none
      | some (i, r) =>
          match unpackAlt P ss i r with
          | none => none
          | some (x, r2) => some (.var i x, r2)
termination_by s prior buf => (sizeOf s, 0)

/-- UNPACK of tuple / composite members in declared order, each read in place
into the corresponding prior component. -/
def unpackList (P : Packer) :
    List Shape → List Val → List Nat → Option (List Val × List Nat)
  | [], _, buf => some ([], buf)
  | s :: ss, ps, buf =>
      match unpackVal P s (ps.headD (defaultVal s)) buf with
      | none => none
      | some (x, r) =>
          match unpackList P ss ps.tail r with
          | none => none
          | some (xs, r2) => some (x :: xs, r2)
termination_by ss ps buf => (sizeOf ss, 0)

/-- UNPACK of vector elements, one per prior slot of the resized
destination. -/
def unpackHom (P : Packer) (s : Shape) :
    List Val → List Nat → Option (List Val × List Nat)
  | [], buf => some ([], buf)
  | p :: ps, buf =>
      match unpackVal P s p buf with
      | none => none
      | some (x, r) =>
          match unpackHom P s ps r with
          | none => none
          | some (xs, r2) => some (x :: xs, r2)
termination_by ps buf => (sizeOf s, ps.length + 1)

/-- UNPACK loop of the map handler: count times, a default-constructed entry
is read (key then mapped value) and inserted with the deduplicating insert
into the accumulating destination. -/
def unpackEntries (P : Packer) (k v : Shape) :
    Nat → List (Val × Val) → List Nat → Option (List (Val × Val) × List Nat)
  | 0, acc, buf => some (acc, buf)
  | n + 1, acc, buf =>
      match unpackVal P k (defaultVal k) buf with
      | none => none
      | some (ek, r) =>
          match unpackVal P v (defaultVal v) r with
          | none => none
          | some (ev, r2) => unpackEntries P k v n (insertEntry acc ek ev) r2
termination_by n acc buf => (sizeOf k + sizeOf v, n + 1)
decreasing_by
  all_goals simp_wf
  all_goals
    first
      | (apply Prod.Lex.right; omega)
      | (apply Prod.Lex.left
         have hk := Shape.sizeOf_pos k
         have hv := Shape.sizeOf_pos v
         omega)

/-- UNPACK loop of the set handler. -/
def unpackElems (P : Packer) (s : Shape) :
    Nat → List Val → List Nat → Option (List Val × List Nat)
  | 0, acc, buf => some (acc, buf)
  | n + 1, acc, buf =>
      match unpackVal P s (defaultVal s) buf with
      | none => none
      | some (x, r) => unpackElems P s n (insertElem acc x) r
termination_by n acc buf => (sizeOf s, n + 1)

/-- UNPACK of a variant alternative: mirrors detail::make_variant (construct
the default payload of the runtime index, throwing on an out-of-range index
before any payload byte is read) followed by the visit that reads into the
freshly activated payload. -/
def unpackAlt (P : Packer) :
    List Shape → Nat → List Nat → Option (Val × List Nat)
  | [], _, _ => none
  | s :: _, 0, buf => unpackVal P s (defaultVal s) buf
  | _ :: ss, i + 1, buf => unpackAlt P ss i buf
termination_by ss i buf => (sizeOf ss, 0)

end

/-- The observable state of a Serializer after an operation: accumulated
m_packSize, cursor m_position, and the owned byte buffer. -/
structure Serializer where
  m_packSize : Nat
  m_position : Nat
  m_buffer : List Nat

/-- Overwrite of a pre-sized buffer by a sequential write starting at
position 0: the written bytes replace the prefix; untouched allocated bytes
beyond the cursor keep their resize-value. -/
def writeBytes (base bytes : List Nat) : List Nat :=
  bytes ++ base.drop bytes.length

/-- Serializer::pack on a fresh Serializer: the PACKSIZE pass computes
m_packSize, the buffer is resized to it (zero-filled, from empty), the
cursor resets to 0 and the PACK pass writes its bytes sequentially. -/
def Serializer.pack (P : Packer) (s : Shape) (v : Val) : Serializer :=
  let sz := packSizeVal P s v
  let bytes := packVal P s v
  { m_packSize := sz
    m_position := bytes.length
    m_buffer := writeBytes (List.replicate sz 0) bytes }

/-- Serializer::unpack: the cursor resets to 0 and the UNPACK pass reads the
destination in place from the buffer; the final cursor is the number of
consumed bytes.  none models an exception escaping the call. -/
def Serializer.unpack (P : Packer) (s : Shape) (dest : Val) (ser : Serializer) :
    Option (Val × Serializer) :=
  match unpackVal P s dest ser.m_buffer with
  | none => none
  | some (x, r) =>
      some (x, { ser with m_position := ser.m_buffer.length - r.length })

/-- The PACKSIZE pass of the variadic Serializer::pack overload: its
variadic_call applies the current operation to each argument in order, with
no arity prefix. -/
def variadic_packSize (P : Packer) : List (Shape × Val) → Nat
  | [] => 0
  | (s, v) :: args => packSizeVal P s v + variadic_packSize P args

/-- The PACK pass of the variadic Serializer::pack overload. -/
def variadic_pack (P : Packer) : List (Shape × Val) → List Nat
  | [] => []
  | (s, v) :: args => packVal P s v ++ variadic_pack P args

/-- The variadic Serializer::pack overload: two variadic_call passes with
the same size-then-resize-then-write protocol as the single-value pack. -/
def Serializer.packMany (P : Packer) (args : List (Shape × Val)) : Serializer :=
  let sz := variadic_packSize P args
  let bytes := variadic_pack P args
  { m_packSize := sz
    m_position := bytes.length
    m_buffer := writeBytes (List.replicate sz 0) bytes }

/-- Concrete one-byte-per-leaf Packer used to witness the theorems: a leaf n
is the single abstract byte n. -/
def unitPacker : Packer where
  packSize _ := 1
  pack n := [n]
  unpack buf :=
    match buf with
    | [] => none
    | b :: r => some (b, r)

theorem unitPacker_inverts : PackerInverts unitPacker := fun _ _ => rfl

theorem unitPacker_sizeExact : PackerSizeExact unitPacker := fun _ => rfl

/-- Round-trip property of one value: for every shape it inhabits, UNPACK
from a default-constructed destination inverts PACK, leaving trailing bytes
untouched. -/
def RT (P : Packer) (y : Val) : Prop :=
  ∀ s, hasShape s y = true →
    ∀ rest, unpackVal P s (defaultVal s) (packVal P s y ++ rest) = some (y, rest)

theorem resizePriors_nil (s : Shape) (n : Nat) :
    resizePriors s [] n = List.replicate n (defaultVal s) := by
  simp [resizePriors]

theorem unpackList_packList (P : Packer) :
    ∀ (ss : List Shape) (vs : List Val), hasShapeList ss vs = true →
      (∀ y ∈ vs, RT P y) →
      ∀ rest, unpackList P ss (defaultList ss) (packList P ss vs ++ rest)
        = some (vs, rest) := by
  intro ss
  induction ss with
  | nil =>
      intro vs hs IH rest
      cases vs with
      | nil => simp [unpackList, packList]
      | cons v vs => simp [hasShapeList] at hs
  | cons s ss ihl =>
      intro vs hs IH rest
      cases vs with
      | nil => simp [hasShapeList] at hs
      | cons v vs =>
          simp only [hasShapeList, Bool.and_eq_true] at hs
          obtain ⟨h1, h2⟩ := hs
          simp only [defaultList, packList, List.append_assoc, unpackList,
            List.headD_cons, List.tail_cons]
          rw [IH v (by simp) s h1 (packList P ss vs ++ rest)]
          dsimp only
          rw [ihl vs h2 (fun y hy => IH y (by simp [hy])) rest]

theorem unpackHom_packHom (P : Packer) (s : Shape) :
    ∀ (vs : List Val), hasShapeHom s vs = true → (∀ y ∈ vs, RT P y) →
      ∀ rest, unpackHom P s (List.replicate vs.length (defaultVal s))
          (packHom P s vs ++ rest) = some (vs, rest) := by
  intro vs
  induction vs with
  | nil => intro _ _ rest; simp [unpackHom, packHom]
  | cons v vs ihl =>
      intro hs IH rest
      simp only [hasShapeHom, Bool.and_eq_true] at hs
      obtain ⟨h1, h2⟩ := hs
      simp only [packHom, List.append_assoc, List.length_cons,
        List.replicate_succ, unpackHom]
      rw [IH v (by simp) s h1 (packHom P s vs ++ rest)]
      dsimp only
      rw [ihl h2 (fun y hy => IH y (by simp [hy])) rest]

theorem unpackAlt_packAlt (P : Packer) :
    ∀ (ss : List Shape) (i : Nat) (x : Val), hasShapeAlt ss i x = true →
      RT P x →
      ∀ rest, unpackAlt P ss i (packAlt P ss i x ++ rest) = some (x, rest) := by
  intro ss
  induction ss with
  | nil => intro i x hs _ rest; simp [hasShapeAlt] at hs
  | cons s ss ihl =>
      intro i x hs hx rest
      cases i with
      | zero =>
          simp only [hasShapeAlt] at hs
          simp only [packAlt, unpackAlt]
          exact hx s hs rest
      | succ i =>
          simp only [hasShapeAlt] at hs
          simp only [packAlt, unpackAlt]
          exact ihl i x hs hx rest

theorem keyMem_append_single (q ek ev : Val) (acc : List (Val × Val)) :
    keyMem q (acc ++ [(ek, ev)]) = (keyMem q acc || (ek == q)) := by
  simp [keyMem]

theorem keyMem_false_of {q : Val} {es : List (Val × Val)} {e : Val × Val}
    (hk : keyMem q es = false) (he : e ∈ es) : (e.1 == q) = false := by
  simp only [keyMem, List.any_eq_false] at hk
  simpa using hk e he

theorem elemMem_append_single (q x : Val) (xs : List Val) :
    elemMem q (xs ++ [x]) = (elemMem q xs || (x == q)) := by
  simp [elemMem]

theorem elemMem_false_of {q : Val} {xs : List Val} {e : Val}
    (hk : elemMem q xs = false) (he : e ∈ xs) : (e == q) = false := by
  simp only [elemMem, List.any_eq_false] at hk
  simpa using hk e he

theorem unpackEntries_packEntries (P : Packer) (k v : Shape) :
    ∀ (es acc : List (Val × Val)),
      hasShapeEntries k v es = true → distinctKeys es = true →
      (∀ e ∈ es, keyMem e.1 acc = false) →
      (∀ e ∈ es, RT P e.1 ∧ RT P e.2) →
      ∀ rest, unpackEntries P k v es.length acc (packEntries P k v es ++ rest)
        = some (acc ++ es, rest) := by
  intro es
  induction es with
  | nil => intro acc _ _ _ _ rest; simp [unpackEntries, packEntries]
  | cons e es ihl =>
      obtain ⟨ek, ev⟩ := e
      intro acc hs hd hacc IH rest
      simp only [hasShapeEntries, Bool.and_eq_true] at hs
      obtain ⟨⟨h1, h2⟩, h3⟩ := hs
      simp only [distinctKeys, Bool.and_eq_true, Bool.not_eq_true'] at hd
      obtain ⟨hd1, hd2⟩ := hd
      simp only [packEntries, List.append_assoc, List.length_cons,
        unpackEntries]
      rw [(IH (ek, ev) (by simp)).1 k h1
        (packVal P v ev ++ (packEntries P k v es ++ rest))]
      dsimp only
      rw [(IH (ek, ev) (by simp)).2 v h2 (packEntries P k v es ++ rest)]
      dsimp only
      have hins : insertEntry acc ek ev = acc ++ [(ek, ev)] := by
        have h0 : keyMem ek acc = false := hacc (ek, ev) (by simp)
        simp [insertEntry, h0]
      rw [hins]
      have hacc2 : ∀ e ∈ es, keyMem e.1 (acc ++ [(ek, ev)]) = false := by
        intro e he
        rw [keyMem_append_single]
        have hold : keyMem e.1 acc = false := hacc e (by simp [he])
        have hne : (ek == e.1) = false := by
          have h4 := keyMem_false_of hd1 he
          rw [beq_eq_false_iff_ne] at h4 ⊢
          exact fun hh => h4 hh.symm
        simp [hold, hne]
      rw [ihl (acc ++ [(ek, ev)]) h3 hd2 hacc2
        (fun e he => IH e (by simp [he])) rest]
      simp

theorem unpackElems_packElems (P : Packer) (s : Shape) :
    ∀ (xs acc : List Val),
      hasShapeHom s xs = true → distinctElems xs = true →
      (∀ x ∈ xs, elemMem x acc = false) →
      (∀ x ∈ xs, RT P x) →
      ∀ rest, unpackElems P s xs.length acc (packHom P s xs ++ rest)
        = some (acc ++ xs, rest) := by
  intro xs
  induction xs with
  | nil => intro acc _ _ _ _ rest; simp [unpackElems, packHom]
  | cons x xs ihl =>
      intro acc hs hd hacc IH rest
      simp only [hasShapeHom, Bool.and_eq_true] at hs
      obtain ⟨h1, h2⟩ := hs
      simp only [distinctElems, Bool.and_eq_true, Bool.not_eq_true'] at hd
      obtain ⟨hd1, hd2⟩ := hd
      simp only [packHom, List.append_assoc, List.length_cons, unpackElems]
      rw [IH x (by simp) s h1 (packHom P s xs ++ rest)]
      dsimp only
      have hins : insertElem acc x = acc ++ [x] := by
        have h0 : elemMem x acc = false := hacc x (by simp)
        simp [insertElem, h0]
      rw [hins]
      have hacc2 : ∀ y ∈ xs, elemMem y (acc ++ [x]) = false := by
        intro y hy
        rw [elemMem_append_single]
        have hold : elemMem y acc = false := hacc y (by simp [hy])
        have hne : (x == y) = false := by
          have h4 := elemMem_false_of hd1 hy
          rw [beq_eq_false_iff_ne] at h4 ⊢
          exact fun hh => h4 hh.symm
        simp [hold, hne]
      rw [ihl (acc ++ [x]) h2 hd2 hacc2 (fun y hy => IH y (by simp [hy])) rest]
      simp

theorem unpack_pack_aux (P : Packer) (hP : PackerInverts P) :
    ∀ (N : Nat) (v : Val), sizeOf v < N → RT P v := by
  intro N
  induction N with
  | zero => intro v hv; exact absurd hv (Nat.not_lt_zero _)
  | succ N ih =>
    intro v hv s hs rest
    cases v with
    | leaf n =>
        rcases s with _ | ss | ss | se | ⟨sk, sv⟩ | se | se | se | ss <;>
          simp [hasShape] at hs
        simp [unpackVal, packVal, hP n rest]
    | tup vs =>
        rcases s with _ | ss | ss | se | ⟨sk, sv⟩ | se | se | se | ss <;>
          simp [hasShape] at hs
        simp only [Val.tup.sizeOf_spec] at hv
        have IH : ∀ y ∈ vs, RT P y := fun y hy =>
          ih y (by have := List.sizeOf_lt_of_mem hy; omega)
        simp only [packVal, defaultVal, unpackVal, tupPriors]
        rw [unpackList_packList P ss vs hs IH rest]
    | obj vs =>
        rcases s with _ | ss | ss | se | ⟨sk, sv⟩ | se | se | se | ss <;>
          simp [hasShape] at hs
        simp only [Val.obj.sizeOf_spec] at hv
        have IH : ∀ y ∈ vs, RT P y := fun y hy =>
          ih y (by have := List.sizeOf_lt_of_mem hy; omega)
        simp only [packVal, defaultVal, unpackVal, objPriors]
        rw [unpackList_packList P ss vs hs IH rest]
    | vec vs =>
        rcases s with _ | ss | ss | se | ⟨sk, sv⟩ | se | se | se | ss <;>
          simp [hasShape] at hs
        simp only [Val.vec.sizeOf_spec] at hv
        have IH : ∀ y ∈ vs, RT P y := fun y hy =>
          ih y (by have := List.sizeOf_lt_of_mem hy; omega)
        simp only [packVal, defaultVal, unpackVal, List.append_assoc]
        rw [hP vs.length (packHom P se vs ++ rest)]
        dsimp only
        simp only [vecPriors, resizePriors_nil]
        rw [unpackHom_packHom P se vs hs IH rest]
    | map es =>
        rcases s with _ | ss | ss | se | ⟨sk, sv⟩ | se | se | se | ss <;>
          simp [hasShape] at hs
        simp only [Val.map.sizeOf_spec] at hv
        have IH : ∀ e ∈ es, RT P e.1 ∧ RT P e.2 := fun e he =>
          ⟨ih e.1 (by
              have h1 := List.sizeOf_lt_of_mem he
              have h2 := sizeOf_fst_lt e
              omega),
           ih e.2 (by
              have h1 := List.sizeOf_lt_of_mem he
              have h2 := sizeOf_snd_lt e
              omega)⟩
        simp only [packVal, defaultVal, unpackVal, List.append_assoc]
        rw [hP es.length (packEntries P sk sv es ++ rest)]
        dsimp only
        simp only [mapPriors]
        rw [unpackEntries_packEntries P sk sv es [] hs.1 hs.2
          (fun e _ => rfl) IH rest]
        simp
    | set xs =>
        rcases s with _ | ss | ss | se | ⟨sk, sv⟩ | se | se | se | ss <;>
          simp [hasShape] at hs
        simp only [Val.set.sizeOf_spec] at hv
        have IH : ∀ y ∈ xs, RT P y := fun y hy =>
          ih y (by have := List.sizeOf_lt_of_mem hy; omega)
        simp only [packVal, defaultVal, unpackVal, List.append_assoc]
        rw [hP xs.length (packHom P se xs ++ rest)]
        dsimp only
        simp only [setPriors]
        rw [unpackElems_packElems P se xs [] hs.1 hs.2 (fun x _ => rfl) IH rest]
        simp
    | opt o =>
        rcases s with _ | ss | ss | se | ⟨sk, sv⟩ | se | se | se | ss <;>
          cases o <;> simp [hasShape] at hs ⊢
        case opt.none =>
            simp only [packVal, defaultVal, unpackVal]
            rw [hP 0 rest]
            dsimp only
            simp
        case opt.some x =>
            simp only [Val.opt.sizeOf_spec, Option.some.sizeOf_spec] at hv
            have hx : sizeOf x < N := by omega
            simp only [packVal, defaultVal, unpackVal, List.append_assoc]
            rw [hP 1 (packVal P se x ++ rest)]
            dsimp only
            rw [if_pos (show (1 : Nat) ≠ 0 by decide)]
            rw [ih x hx se hs rest]
    | ptr o =>
        rcases s with _ | ss | ss | se | ⟨sk, sv⟩ | se | se | se | ss <;>
          cases o <;> simp [hasShape] at hs ⊢
        case ptr.none =>
            simp only [packVal, defaultVal, unpackVal]
            rw [hP 0 rest]
            dsimp only
            simp [ptrPrior]
        case ptr.some x =>
            simp only [Val.ptr.sizeOf_spec, Option.some.sizeOf_spec] at hv
            have hx : sizeOf x < N := by omega
            simp only [packVal, defaultVal, unpackVal, List.append_assoc]
            rw [hP 1 (packVal P se x ++ rest)]
            dsimp only
            rw [if_pos (show (1 : Nat) ≠ 0 by decide)]
            rw [ih x hx se hs rest]
    | var i x =>
        rcases s with _ | ss | ss | se | ⟨sk, sv⟩ | se | se | se | ss <;>
          simp [hasShape] at hs
        simp only [Val.var.sizeOf_spec] at hv
        have hx : sizeOf x < N := by omega
        simp only [packVal, unpackVal, List.append_assoc]
        rw [hP i (packAlt P ss i x ++ rest)]
        dsimp only
        rw [unpackAlt_packAlt P ss i x hs (ih x hx) rest]

/-- Round-trip of the three-pass engine at the level of one dispatch call:
for every well-typed value, UNPACK from a default-constructed destination
inverts PACK, for any trailing bytes. -/
theorem unpack_pack (P : Packer) (hP : PackerInverts P) (s : Shape) (v : Val)
    (hs : hasShape s v = true) (rest : List Nat) :
    unpackVal P s (defaultVal s) (packVal P s v ++ rest) = some (v, rest) :=
  unpack_pack_aux P hP (sizeOf v + 1) v (Nat.lt_succ_self _) s hs rest

/-- Byte-length agreement of one value between the PACK and PACKSIZE
passes, given elementwise agreement. -/
def LenEq (P : Packer) (y : Val) : Prop :=
  ∀ s, (packVal P s y).length = packSizeVal P s y

theorem packList_length_of (P : Packer) :
    ∀ (ss : List Shape) (vs : List Val), (∀ y ∈ vs, LenEq P y) →
      (packList P ss vs).length = packSizeList P ss vs := by
  intro ss
  induction ss with
  | nil => intro vs _; cases vs <;> simp [packList, packSizeList]
  | cons s ss ihl =>
      intro vs IH
      cases vs with
      | nil => simp [packList, packSizeList]
      | cons v vs =>
          simp only [packList, packSizeList, List.length_append,
            IH v (by simp) s, ihl vs (fun y hy => IH y (by simp [hy]))]

theorem packHom_length_of (P : Packer) (s : Shape) :
    ∀ (vs : List Val), (∀ y ∈ vs, LenEq P y) →
      (packHom P s vs).length = packSizeHom P s vs := by
  intro vs
  induction vs with
  | nil => intro _; simp [packHom, packSizeHom]
  | cons v vs ihl =>
      intro IH
      simp only [packHom, packSizeHom, List.length_append,
        IH v (by simp) s, ihl (fun y hy => IH y (by simp [hy]))]

theorem packEntries_length_of (P : Packer) (k v : Shape) :
    ∀ (es : List (Val × Val)), (∀ e ∈ es, LenEq P e.1 ∧ LenEq P e.2) →
      (packEntries P k v es).length = packSizeEntries P k v es := by
  intro es
  induction es with
  | nil => intro _; simp [packEntries, packSizeEntries]
  | cons e es ihl =>
      obtain ⟨ek, ev⟩ := e
      intro IH
      simp only [packEntries, packSizeEntries, List.length_append,
        (IH (ek, ev) (by simp)).1 k, (IH (ek, ev) (by simp)).2 v,
        ihl (fun e he => IH e (by simp [he]))]

theorem packAlt_length_of (P : Packer) :
    ∀ (ss : List Shape) (i : Nat) (x : Val), LenEq P x →
      (packAlt P ss i x).length = packSizeAlt P ss i x := by
  intro ss
  induction ss with
  | nil => intro i x _; simp [packAlt, packSizeAlt]
  | cons s ss ihl =>
      intro i x IHx
      cases i with
      | zero => simp only [packAlt, packSizeAlt, IHx s]
      | succ i => simp only [packAlt, packSizeAlt, ihl i x IHx]

theorem pack_length_aux (P : Packer) (hS : PackerSizeExact P) :
    ∀ (N : Nat) (v : Val), sizeOf v < N → LenEq P v := by
  intro N
  induction N with
  | zero => intro v hv; exact absurd hv (Nat.not_lt_zero _)
  | succ N ih =>
    intro v hv s
    have hSe : ∀ n, P.packSize n = (P.pack n).length := hS
    cases v with
    | leaf n =>
        cases s <;> simp [packVal, packSizeVal, hSe n]
    | tup vs =>
        simp only [Val.tup.sizeOf_spec] at hv
        have IH : ∀ y ∈ vs, LenEq P y := fun y hy =>
          ih y (by have := List.sizeOf_lt_of_mem hy; omega)
        cases s <;>
          simp [packVal, packSizeVal, packList_length_of P _ vs IH]
    | obj vs =>
        simp only [Val.obj.sizeOf_spec] at hv
        have IH : ∀ y ∈ vs, LenEq P y := fun y hy =>
          ih y (by have := List.sizeOf_lt_of_mem hy; omega)
        cases s <;>
          simp [packVal, packSizeVal, packList_length_of P _ vs IH]
    | vec vs =>
        simp only [Val.vec.sizeOf_spec] at hv
        have IH : ∀ y ∈ vs, LenEq P y := fun y hy =>
          ih y (by have := List.sizeOf_lt_of_mem hy; omega)
        cases s <;>
          simp [packVal, packSizeVal, hSe, packHom_length_of P _ vs IH]
    | map es =>
        simp only [Val.map.sizeOf_spec] at hv
        have IH : ∀ e ∈ es, LenEq P e.1 ∧ LenEq P e.2 := fun e he =>
          ⟨ih e.1 (by
              have h1 := List.sizeOf_lt_of_mem he
              have h2 := sizeOf_fst_lt e
              omega),
           ih e.2 (by
              have h1 := List.sizeOf_lt_of_mem he
              have h2 := sizeOf_snd_lt e
              omega)⟩
        cases s <;>
          simp [packVal, packSizeVal, hSe, packEntries_length_of P _ _ es IH]
    | set xs =>
        simp only [Val.set.sizeOf_spec] at hv
        have IH : ∀ y ∈ xs, LenEq P y := fun y hy =>
          ih y (by have := List.sizeOf_lt_of_mem hy; omega)
        cases s <;>
          simp [packVal, packSizeVal, hSe, packHom_length_of P _ xs IH]
    | opt o =>
        cases o with
        | none => cases s <;> simp [packVal, packSizeVal, hSe]
        | some x =>
            simp only [Val.opt.sizeOf_spec, Option.some.sizeOf_spec] at hv
            have hx : LenEq P x := ih x (by omega)
            cases s <;> simp [packVal, packSizeVal, hSe, hx _]
    | ptr o =>
        cases o with
        | none => cases s <;> simp [packVal, packSizeVal, hSe]
        | some x =>
            simp only [Val.ptr.sizeOf_spec, Option.some.sizeOf_spec] at hv
            have hx : LenEq P x := ih x (by omega)
            cases s <;> simp [packVal, packSizeVal, hSe, hx _]
    | var i x =>
        simp only [Val.var.sizeOf_spec] at hv
        have hx : LenEq P x := ih x (by omega)
        cases s <;>
          simp [packVal, packSizeVal, hSe, packAlt_length_of P _ i x hx]

/-- The PACK pass writes exactly the byte count the PACKSIZE pass
accumulated, for every value and shape (the structurally identical branches
guarantee it even off the well-typed fragment). -/
theorem pack_length (P : Packer) (hS : PackerSizeExact P) (s : Shape)
    (v : Val) : (packVal P s v).length = packSizeVal P s v :=
  pack_length_aux P hS (sizeOf v + 1) v (Nat.lt_succ_self _) s

theorem mem_insertEntry {e : Val × Val} {acc : List (Val × Val)} (k v : Val)
    (he : e ∈ acc) : e ∈ insertEntry acc k v := by
  unfold insertEntry
  split <;> simp [he]

theorem mem_insertElem {e : Val} {acc : List Val} (x : Val)
    (he : e ∈ acc) : e ∈ insertElem acc x := by
  unfold insertElem
  split <;> simp [he]

theorem unpackEntries_mono (P : Packer) (k v : Shape) :
    ∀ (n : Nat) (acc : List (Val × Val)) (buf : List Nat)
      (es' : List (Val × Val)) (r : List Nat),
      unpackEntries P k v n acc buf = some (es', r) →
      ∀ e ∈ acc, e ∈ es' := by
  intro n
  induction n with
  | zero =>
      intro acc buf es' r h e he
      simp only [unpackEntries, Option.some.injEq, Prod.mk.injEq] at h
      exact h.1 ▸ he
  | succ n ihn =>
      intro acc buf es' r h e he
      simp only [unpackEntries] at h
      cases hk : unpackVal P k (defaultVal k) buf with
      | none => rw [hk] at h; simp at h
      | some kr =>
          obtain ⟨ek, r1⟩ := kr
          rw [hk] at h
          dsimp only at h
          cases hv2 : unpackVal P v (defaultVal v) r1 with
          | none => rw [hv2] at h; simp at h
          | some vr =>
              obtain ⟨ev, r2⟩ := vr
              rw [hv2] at h
              dsimp only at h
              exact ihn (insertEntry acc ek ev) r2 es' r h e
                (mem_insertEntry ek ev he)

theorem unpackElems_mono (P : Packer) (s : Shape) :
    ∀ (n : Nat) (acc : List Val) (buf : List Nat)
      (xs' : List Val) (r : List Nat),
      unpackElems P s n acc buf = some (xs', r) →
      ∀ x ∈ acc, x ∈ xs' := by
  intro n
  induction n with
  | zero =>
      intro acc buf xs' r h x hx
      simp only [unpackElems, Option.some.injEq, Prod.mk.injEq] at h
      exact h.1 ▸ hx
  | succ n ihn =>
      intro acc buf xs' r h x hx
      simp only [unpackElems] at h
      cases he : unpackVal P s (defaultVal s) buf with
      | none => rw [he] at h; simp at h
      | some er =>
          obtain ⟨y, r1⟩ := er
          rw [he] at h
          dsimp only at h
          exact ihn (insertElem acc y) r1 xs' r h x (mem_insertElem y hx)

theorem unpackAlt_out_of_range (P : Packer) :
    ∀ (ss : List Shape) (i : Nat), ss.length ≤ i →
      ∀ buf, unpackAlt P ss i buf = none := by
  intro ss
  induction ss with
  | nil => intro i _ buf; simp [unpackAlt]
  | cons s ss ihl =>
      intro i hi buf
      cases i with
      | zero => simp at hi
      | succ i =>
          simp only [unpackAlt]
          exact ihl i (by simpa using hi) buf

theorem hasShapeAlt_of (x : Val) :
    ∀ (ss : List Shape) (i : Nat), i < ss.length →
      hasShape (ss.getD i .leaf) x = true → hasShapeAlt ss i x = true := by
  intro ss
  induction ss with
  | nil => intro i hi _; simp at hi
  | cons s ss ihl =>
      intro i hi hx
      cases i with
      | zero => simpa [hasShapeAlt] using hx
      | succ i =>
          simp only [hasShapeAlt]
          exact ihl i (by simpa using hi) hx

theorem packAlt_getD (P : Packer) (x : Val) :
    ∀ (ss : List Shape) (i : Nat), i < ss.length →
      packAlt P ss i x = packVal P (ss.getD i .leaf) x := by
  intro ss
  induction ss with
  | nil => intro i hi; simp at hi
  | cons s ss ihl =>
      intro i hi
      cases i with
      | zero => simp [packAlt]
      | succ i =>
          simp only [packAlt, List.getD_cons_succ]
          exact ihl i (by simpa using hi)

/-- C1: for every supported shape and every well-typed value of it, packing
with Serializer::pack and unpacking into a default-constructed destination
of the same shape returns exactly the original value, provided the Packer's
unpack inverts its pack on every primitive leaf. -/
theorem round_trip_law (P : Packer) (hP : PackerInverts P) (s : Shape)
    (v : Val) (hs : hasShape s v = true) :
    (Serializer.unpack P s (defaultVal s) (Serializer.pack P s v)).map
        Prod.fst = some v := by
  have h := unpack_pack P hP s v hs
      ((List.replicate (packSizeVal P s v) 0).drop (packVal P s v).length)
  simp only [Serializer.unpack, Serializer.pack, writeBytes]
  rw [h]
  dsimp only
  simp

/-- Witness for C1 at the unit Packer and a nested value exercising scalar,
tuple, optional, map, variant, pointer, set and composite shapes. -/
theorem round_trip_law_witness :
    hasShape
        (.tup [.leaf, .opt .leaf, .map .leaf .leaf, .var [.leaf, .vec .leaf],
          .ptr .leaf, .set .leaf, .obj [.leaf, .leaf]])
        (.tup [.leaf 3, .opt (some (.leaf 4)),
          .map [(.leaf 1, .leaf 2), (.leaf 5, .leaf 6)],
          .var 1 (.vec [.leaf 7, .leaf 8]), .ptr (some (.leaf 9)),
          .set [.leaf 1, .leaf 3], .obj [.leaf 10, .leaf 11]]) = true
    ∧ (Serializer.unpack unitPacker
        (.tup [.leaf, .opt .leaf, .map .leaf .leaf, .var [.leaf, .vec .leaf],
          .ptr .leaf, .set .leaf, .obj [.leaf, .leaf]])
        (defaultVal
          (.tup [.leaf, .opt .leaf, .map .leaf .leaf, .var [.leaf, .vec .leaf],
            .ptr .leaf, .set .leaf, .obj [.leaf, .leaf]]))
        (Serializer.pack unitPacker
          (.tup [.leaf, .opt .leaf, .map .leaf .leaf, .var [.leaf, .vec .leaf],
            .ptr .leaf, .set .leaf, .obj [.leaf, .leaf]])
          (.tup [.leaf 3, .opt (some (.leaf 4)),
            .map [(.leaf 1, .leaf 2), (.leaf 5, .leaf 6)],
            .var 1 (.vec [.leaf 7, .leaf 8]), .ptr (some (.leaf 9)),
            .set [.leaf 1, .leaf 3], .obj [.leaf 10, .leaf 11]]))).map
        Prod.fst
      = some (.tup [.leaf 3, .opt (some (.leaf 4)),
          .map [(.leaf 1, .leaf 2), (.leaf 5, .leaf 6)],
          .var 1 (.vec [.leaf 7, .leaf 8]), .ptr (some (.leaf 9)),
          .set [.leaf 1, .leaf 3], .obj [.leaf 10, .leaf 11]]) := by
  have h : hasShape
        (.tup [.leaf, .opt .leaf, .map .leaf .leaf, .var [.leaf, .vec .leaf],
          .ptr .leaf, .set .leaf, .obj [.leaf, .leaf]])
        (.tup [.leaf 3, .opt (some (.leaf 4)),
          .map [(.leaf 1, .leaf 2), (.leaf 5, .leaf 6)],
          .var 1 (.vec [.leaf 7, .leaf 8]), .ptr (some (.leaf 9)),
          .set [.leaf 1, .leaf 3], .obj [.leaf 10, .leaf 11]]) = true := by
    simp [hasShape, hasShapeList, hasShapeHom, hasShapeEntries, hasShapeAlt,
      distinctKeys, distinctElems, keyMem, elemMem, Val.beq]
  exact ⟨h, round_trip_law unitPacker unitPacker_inverts _ _ h⟩

/-- C2: the PACKSIZE pass accumulates exactly the byte count the PACK pass
writes, so after Serializer::pack the cursor equals the buffer size, given a
Packer whose packSize of each leaf equals the bytes its pack writes. -/
theorem size_precomputation_law (P : Packer) (hS : PackerSizeExact P)
    (s : Shape) (v : Val) :
    (packVal P s v).length = packSizeVal P s v
    ∧ (Serializer.pack P s v).m_position
        = (Serializer.pack P s v).m_buffer.length := by
  have h := pack_length P hS s v
  refine ⟨h, ?_⟩
  simp [Serializer.pack, writeBytes]
  omega

/-- Witness for C2 at the unit Packer and a nested concrete value. -/
theorem size_precomputation_law_witness :
    (packVal unitPacker (.map .leaf (.vec .leaf))
        (.map [(.leaf 1, .vec [.leaf 2, .leaf 3])])).length
      = packSizeVal unitPacker (.map .leaf (.vec .leaf))
          (.map [(.leaf 1, .vec [.leaf 2, .leaf 3])])
    ∧ (Serializer.pack unitPacker (.map .leaf (.vec .leaf))
          (.map [(.leaf 1, .vec [.leaf 2, .leaf 3])])).m_position
        = (Serializer.pack unitPacker (.map .leaf (.vec .leaf))
            (.map [(.leaf 1, .vec [.leaf 2, .leaf 3])])).m_buffer.length :=
  size_precomputation_law unitPacker unitPacker_sizeExact
    (.map .leaf (.vec .leaf)) (.map [(.leaf 1, .vec [.leaf 2, .leaf 3])])

/-- C3: unpacking a variant whose encoded index is at or beyond the number
of statically known alternatives aborts with a decode error (the
runtime_error of detail::make_variant), constructing no alternative and
reading no payload byte, whatever follows the index in the buffer. -/
theorem variant_bad_index_aborts (P : Packer) (hP : PackerInverts P)
    (ss : List Shape) (i : Nat) (hi : ss.length ≤ i) (prior : Val)
    (rest : List Nat) :
    unpackVal P (.var ss) prior (P.pack i ++ rest) = none := by
  simp only [unpackVal]
  rw [hP i rest]
  dsimp only
  rw [unpackAlt_out_of_range P ss i hi rest]

/-- Witness for C3: index 99 against 3 statically known alternatives, the
example of the specification. -/
theorem variant_bad_index_aborts_witness :
    unpackVal unitPacker (.var [.leaf, .leaf, .leaf]) (.var 0 (.leaf 0))
        (unitPacker.pack 99 ++ [1, 2, 3]) = none :=
  variant_bad_index_aborts unitPacker unitPacker_inverts
    [.leaf, .leaf, .leaf] 99 (by simp) (.var 0 (.leaf 0)) [1, 2, 3]

/-- C4 counterexample: decoding the empty-optional encoding (false flag)
into a destination that already holds a value leaves that value in place -
the destination is not set to the empty state, refuting the claim for that
prior state. -/
theorem optional_false_flag_counterexample :
    unpackVal unitPacker (.opt .leaf) (.opt (some (.leaf 5)))
        (unitPacker.pack 0) = some (.opt (some (.leaf 5)), [])
    ∧ Val.opt (some (.leaf 5)) ≠ Val.opt none := by
  constructor
  · simp [unpackVal, unitPacker]
  · simp

/-- C4 amended: unpacking an optional reads the flag; a true flag
default-constructs the payload, reads into it and assigns it; a false flag
leaves the destination exactly as it was (empty only when the destination
was already empty, e.g. freshly default-constructed). -/
theorem optional_unpack_behavior (P : Packer) (hP : PackerInverts P)
    (s : Shape) (x : Val) (hx : hasShape s x = true) (prior : Val)
    (rest : List Nat) :
    unpackVal P (.opt s) prior (packVal P (.opt s) (.opt (some x)) ++ rest)
      = some (.opt (some x), rest)
    ∧ unpackVal P (.opt s) prior (packVal P (.opt s) (.opt none) ++ rest)
      = some (prior, rest) := by
  constructor
  · simp only [packVal, unpackVal, List.append_assoc]
    rw [hP 1 (packVal P s x ++ rest)]
    dsimp only
    rw [if_pos (show (1 : Nat) ≠ 0 by decide)]
    rw [unpack_pack P hP s x hx rest]
  · simp only [packVal, unpackVal]
    rw [hP 0 rest]
    dsimp only
    simp

/-- Witness for the amended C4 at the unit Packer, with a destination that
already holds a value. -/
theorem optional_unpack_behavior_witness :
    hasShape .leaf (.leaf 7) = true
    ∧ (unpackVal unitPacker (.opt .leaf) (.opt (some (.leaf 9)))
          (packVal unitPacker (.opt .leaf) (.opt (some (.leaf 7))) ++ [])
        = some (.opt (some (.leaf 7)), [])
      ∧ unpackVal unitPacker (.opt .leaf) (.opt (some (.leaf 9)))
          (packVal unitPacker (.opt .leaf) (.opt none) ++ [])
        = some (.opt (some (.leaf 9)), [])) := by
  have h : hasShape .leaf (.leaf 7) = true := by simp [hasShape]
  exact ⟨h, optional_unpack_behavior unitPacker unitPacker_inverts .leaf
    (.leaf 7) h (.opt (some (.leaf 9))) []⟩

/-- C5 counterexample: decoding a false (null) flag into a destination that
already owns a pointee does not reset it to null - the handler keeps the
non-null destination and even reads a further payload byte into the old
pointee, refuting the reset-to-null claim for that prior state. -/
theorem ptr_false_flag_counterexample :
    unpackVal unitPacker (.ptr .leaf) (.ptr (some (.leaf 5)))
        (unitPacker.pack 0 ++ unitPacker.pack 9)
      = some (.ptr (some (.leaf 9)), [])
    ∧ Val.ptr (some (.leaf 9)) ≠ Val.ptr none := by
  constructor
  · simp [unpackVal, unitPacker, ptrPrior]
  · simp

/-- C5 amended: on a false non-null flag, a null destination stays null with
no further bytes consumed; a destination already owning a pointee is not
reset - the handler keeps it non-null and dispatch-reads the following bytes
into the previously owned pointee. -/
theorem ptr_unpack_false_flag (P : Packer) (hP : PackerInverts P) (s : Shape)
    (p : Val) (rest : List Nat) :
    unpackVal P (.ptr s) (.ptr none) (P.pack 0 ++ rest)
      = some (.ptr none, rest)
    ∧ unpackVal P (.ptr s) (.ptr (some p)) (P.pack 0 ++ rest)
      = (unpackVal P s p rest).map
          (fun pr => (Val.ptr (some pr.1), pr.2)) := by
  constructor
  · simp only [unpackVal]
    rw [hP 0 rest]
    dsimp only
    simp [ptrPrior]
  · simp only [unpackVal]
    rw [hP 0 rest]
    dsimp only
    simp only [ptrPrior]
    cases h : unpackVal P s p rest with
    | none => simp
    | some pr => obtain ⟨x, r⟩ := pr; simp

/-- Witness for the amended C5 at the unit Packer. -/
theorem ptr_unpack_false_flag_witness :
    unpackVal unitPacker (.ptr .leaf) (.ptr none) (unitPacker.pack 0 ++ [9])
      = some (.ptr none, [9])
    ∧ unpackVal unitPacker (.ptr .leaf) (.ptr (some (.leaf 5)))
        (unitPacker.pack 0 ++ [9])
      = (unpackVal unitPacker .leaf (.leaf 5) [9]).map
          (fun pr => (Val.ptr (some pr.1), pr.2)) :=
  ptr_unpack_false_flag unitPacker unitPacker_inverts .leaf (.leaf 5) [9]

/-- C6: decoding a stream carrying two entries with identical keys into an
empty map or set destination raises no error and yields exactly one entry
for that key, the first decoded one - the winner of the native
deduplicating insert of std::map / std::set. -/
theorem duplicate_key_collapse (P : Packer) (hP : PackerInverts P)
    (k v : Shape) (ek v1 v2 : Val) (hk : hasShape k ek = true)
    (h1 : hasShape v v1 = true) (h2 : hasShape v v2 = true)
    (rest : List Nat) :
    unpackVal P (.map k v) (.map [])
        (P.pack 2 ++ packVal P k ek ++ packVal P v v1
          ++ packVal P k ek ++ packVal P v v2 ++ rest)
      = some (.map [(ek, v1)], rest)
    ∧ unpackVal P (.set k) (.set [])
        (P.pack 2 ++ packVal P k ek ++ packVal P k ek ++ rest)
      = some (.set [ek], rest) := by
  constructor
  · simp only [unpackVal, List.append_assoc]
    rw [hP 2 (packVal P k ek ++ (packVal P v v1
      ++ (packVal P k ek ++ (packVal P v v2 ++ rest))))]
    dsimp only
    simp only [mapPriors]
    simp only [unpackEntries]
    rw [unpack_pack P hP k ek hk]
    dsimp only
    rw [unpack_pack P hP v v1 h1]
    dsimp only
    rw [unpack_pack P hP k ek hk]
    dsimp only
    rw [unpack_pack P hP v v2 h2]
    dsimp only
    have hins1 : insertEntry [] ek v1 = [(ek, v1)] := by
      simp [insertEntry, keyMem]
    have hins2 : insertEntry [(ek, v1)] ek v2 = [(ek, v1)] := by
      simp [insertEntry, keyMem]
    rw [hins1, hins2]
  · simp only [unpackVal, List.append_assoc]
    rw [hP 2 (packVal P k ek ++ (packVal P k ek ++ rest))]
    dsimp only
    simp only [setPriors]
    simp only [unpackElems]
    rw [unpack_pack P hP k ek hk]
    dsimp only
    rw [unpack_pack P hP k ek hk]
    dsimp only
    have hins1 : insertElem [] ek = [ek] := by simp [insertElem, elemMem]
    have hins2 : insertElem [ek] ek = [ek] := by simp [insertElem, elemMem]
    rw [hins1, hins2]

/-- Witness for C6 at the unit Packer: the crafted stream 2,5,7,5,9 for the
map and 2,5,5 for the set. -/
theorem duplicate_key_collapse_witness :
    hasShape Shape.leaf (.leaf 5) = true
    ∧ (unpackVal unitPacker (.map .leaf .leaf) (.map [])
          (unitPacker.pack 2 ++ packVal unitPacker .leaf (.leaf 5)
            ++ packVal unitPacker .leaf (.leaf 7)
            ++ packVal unitPacker .leaf (.leaf 5)
            ++ packVal unitPacker .leaf (.leaf 9) ++ [])
        = some (.map [(.leaf 5, .leaf 7)], [])
      ∧ unpackVal unitPacker (.set .leaf) (.set [])
          (unitPacker.pack 2 ++ packVal unitPacker .leaf (.leaf 5)
            ++ packVal unitPacker .leaf (.leaf 5) ++ [])
        = some (.set [.leaf 5], [])) := by
  have h5 : hasShape Shape.leaf (.leaf 5) = true := by simp [hasShape]
  have h7 : hasShape Shape.leaf (.leaf 7) = true := by simp [hasShape]
  have h9 : hasShape Shape.leaf (.leaf 9) = true := by simp [hasShape]
  exact ⟨h5, duplicate_key_collapse unitPacker unitPacker_inverts .leaf .leaf
    (.leaf 5) (.leaf 7) (.leaf 9) h5 h7 h9 []⟩

/-- C7: packing a variant holding alternative i writes the zero-based index
i before the payload of that alternative, and unpacking such a buffer
reconstructs a variant whose active alternative is exactly i, for any prior
destination - never a different alternative. -/
theorem variant_tag_fidelity (P : Packer) (hP : PackerInverts P)
    (ss : List Shape) (i : Nat) (x : Val) (hi : i < ss.length)
    (hx : hasShape (ss.getD i .leaf) x = true) (prior : Val)
    (rest : List Nat) :
    packVal P (.var ss) (.var i x)
      = P.pack i ++ packVal P (ss.getD i .leaf) x
    ∧ unpackVal P (.var ss) prior (packVal P (.var ss) (.var i x) ++ rest)
      = some (.var i x, rest) := by
  have halt : hasShapeAlt ss i x = true := hasShapeAlt_of x ss i hi hx
  constructor
  · simp only [packVal]
    rw [packAlt_getD P x ss i hi]
  · simp only [packVal, unpackVal, List.append_assoc]
    rw [hP i (packAlt P ss i x ++ rest)]
    dsimp only
    rw [unpackAlt_packAlt P ss i x halt
      (unpack_pack_aux P hP (sizeOf x + 1) x (Nat.lt_succ_self _)) rest]

/-- Witness for C7: alternative 2 of a 3-alternative variant, the example of
the specification, decoded over a prior destination holding alternative 0. -/
theorem variant_tag_fidelity_witness :
    2 < List.length [Shape.leaf, Shape.leaf, Shape.vec .leaf]
    ∧ hasShape (List.getD [Shape.leaf, Shape.leaf, Shape.vec .leaf] 2 .leaf)
        (.vec [.leaf 4]) = true
    ∧ (packVal unitPacker (.var [.leaf, .leaf, .vec .leaf])
          (.var 2 (.vec [.leaf 4]))
        = unitPacker.pack 2
          ++ packVal unitPacker
              (List.getD [Shape.leaf, Shape.leaf, Shape.vec .leaf] 2 .leaf)
              (.vec [.leaf 4])
      ∧ unpackVal unitPacker (.var [.leaf, .leaf, .vec .leaf])
          (.var 0 (.leaf 0))
          (packVal unitPacker (.var [.leaf, .leaf, .vec .leaf])
            (.var 2 (.vec [.leaf 4])) ++ [])
        = some (.var 2 (.vec [.leaf 4]), [])) := by
  have hi : 2 < List.length [Shape.leaf, Shape.leaf, Shape.vec .leaf] := by
    simp
  have hx : hasShape
      (List.getD [Shape.leaf, Shape.leaf, Shape.vec .leaf] 2 .leaf)
      (.vec [.leaf 4]) = true := by
    simp [hasShape, hasShapeHom]
  exact ⟨hi, hx, variant_tag_fidelity unitPacker unitPacker_inverts
    [.leaf, .leaf, .vec .leaf] 2 (.vec [.leaf 4]) hi hx (.var 0 (.leaf 0)) []⟩

theorem variadic_pack_eq (P : Packer) :
    ∀ args : List (Shape × Val),
      variadic_pack P args
        = packList P (args.map Prod.fst) (args.map Prod.snd) := by
  intro args
  induction args with
  | nil => simp [variadic_pack, packList]
  | cons a args ihl =>
      obtain ⟨s, v⟩ := a
      simp [variadic_pack, packList, ihl]

theorem variadic_packSize_eq (P : Packer) :
    ∀ args : List (Shape × Val),
      variadic_packSize P args
        = packSizeList P (args.map Prod.fst) (args.map Prod.snd) := by
  intro args
  induction args with
  | nil => simp [variadic_packSize, packSizeList]
  | cons a args ihl =>
      obtain ⟨s, v⟩ := a
      simp [variadic_packSize, packSizeList, ihl]

/-- C8: the variadic pack overload produces a buffer byte-for-byte identical
to packing the single tuple of the same values in the same order - both
serialize the elements in declared order with no arity prefix. -/
theorem variadic_pack_eq_tuple_pack (P : Packer)
    (args : List (Shape × Val)) :
    variadic_pack P args
      = packVal P (.tup (args.map Prod.fst)) (.tup (args.map Prod.snd))
    ∧ (Serializer.packMany P args).m_buffer
      = (Serializer.pack P (.tup (args.map Prod.fst))
          (.tup (args.map Prod.snd))).m_buffer := by
  constructor
  · rw [variadic_pack_eq P args]
    simp [packVal]
  · simp only [Serializer.packMany, Serializer.pack, writeBytes, packVal,
      packSizeVal, variadic_pack_eq P args, variadic_packSize_eq P args]

/-- C9: unpacking into a map or set destination never clears it: every entry
present before the call is still present afterwards (in particular every
entry whose key does not collide with a decoded key), the decoded entries
being merged in by the native insert. -/
theorem unpack_merges_into_destination (P : Packer) (k v s : Shape)
    (es0 : List (Val × Val)) (xs0 : List Val) (bufm bufs : List Nat) :
    (∀ out r, unpackVal P (.map k v) (.map es0) bufm = some (out, r) →
       ∀ e ∈ es0, e ∈ mapPriors out)
    ∧ (∀ out r, unpackVal P (.set s) (.set xs0) bufs = some (out, r) →
       ∀ x ∈ xs0, x ∈ setPriors out) := by
  constructor
  · intro out r h e he
    simp only [unpackVal] at h
    cases hn : P.unpack bufm with
    | none => rw [hn] at h; simp at h
    | some nr =>
        obtain ⟨n, r1⟩ := nr
        rw [hn] at h
        dsimp only at h
        simp only [mapPriors] at h
        cases hu : unpackEntries P k v n es0 r1 with
        | none => rw [hu] at h; simp at h
        | some ur =>
            obtain ⟨es', r2⟩ := ur
            rw [hu] at h
            dsimp only at h
            obtain ⟨ho, _⟩ := Option.some.inj h |> Prod.mk.inj
            subst ho
            simpa [mapPriors] using
              unpackEntries_mono P k v n es0 r1 es' r2 hu e he
  · intro out r h x hx
    simp only [unpackVal] at h
    cases hn : P.unpack bufs with
    | none => rw [hn] at h; simp at h
    | some nr =>
        obtain ⟨n, r1⟩ := nr
        rw [hn] at h
        dsimp only at h
        simp only [setPriors] at h
        cases hu : unpackElems P s n xs0 r1 with
        | none => rw [hu] at h; simp at h
        | some ur =>
            obtain ⟨xs', r2⟩ := ur
            rw [hu] at h
            dsimp only at h
            obtain ⟨ho, _⟩ := Option.some.inj h |> Prod.mk.inj
            subst ho
            simpa [setPriors] using
              unpackElems_mono P s n xs0 r1 xs' r2 hu x hx

/-- Witness for C9 at the unit Packer: a non-empty map and set destination
keep their pre-existing non-colliding entries after unpacking a stream that
adds one fresh entry. -/
theorem unpack_merges_into_destination_witness :
    unpackVal unitPacker (.map .leaf .leaf) (.map [(.leaf 1, .leaf 2)])
        [1, 5, 6] = some (.map [(.leaf 1, .leaf 2), (.leaf 5, .leaf 6)], [])
    ∧ (.leaf 1, .leaf 2) ∈ mapPriors (.map [(.leaf 1, .leaf 2),
        (.leaf 5, .leaf 6)])
    ∧ unpackVal unitPacker (.set .leaf) (.set [.leaf 3]) [1, 5]
        = some (.set [.leaf 3, .leaf 5], [])
    ∧ Val.leaf 3 ∈ setPriors (.set [.leaf 3, .leaf 5]) := by
  have hm : unpackVal unitPacker (.map .leaf .leaf)
      (.map [(.leaf 1, .leaf 2)]) [1, 5, 6]
      = some (.map [(.leaf 1, .leaf 2), (.leaf 5, .leaf 6)], []) := by
    simp [unpackVal, unpackEntries, unitPacker, insertEntry, keyMem,
      defaultVal, mapPriors, Val.beq]
  have hset : unpackVal unitPacker (.set .leaf) (.set [.leaf 3]) [1, 5]
      = some (.set [.leaf 3, .leaf 5], []) := by
    simp [unpackVal, unpackElems, unitPacker, insertElem, elemMem,
      defaultVal, setPriors, Val.beq]
  refine ⟨hm, ?_, hset, ?_⟩
  · exact (unpack_merges_into_destination unitPacker .leaf .leaf .leaf
      [(.leaf 1, .leaf 2)] [.leaf 3] [1, 5, 6] [1, 5]).1 _ _ hm
      (.leaf 1, .leaf 2) (by simp)
  · exact (unpack_merges_into_destination unitPacker .leaf .leaf .leaf
      [(.leaf 1, .leaf 2)] [.leaf 3] [1, 5, 6] [1, 5]).2 _ _ hset
      (.leaf 3) (by simp)

/-- C10: unpacking a smart pointer whose non-null flag decodes true always
resets the destination to a freshly default-constructed pointee and reads
into it: the outcome is a function of the stream alone (the right side never
mentions the prior destination), so the decoded pointee never depends on any
previously owned pointee. -/
theorem ptr_true_flag_fresh (P : Packer) (hP : PackerInverts P) (s : Shape)
    (n : Nat) (hn : n ≠ 0) (prior : Val) (rest : List Nat) :
    unpackVal P (.ptr s) prior (P.pack n ++ rest)
      = (unpackVal P s (defaultVal s) rest).map
          (fun pr => (Val.ptr (some pr.1), pr.2)) := by
  simp only [unpackVal]
  rw [hP n rest]
  dsimp only
  rw [if_pos hn]
  cases h : unpackVal P s (defaultVal s) rest with
  | none => simp
  | some pr => obtain ⟨x, r⟩ := pr; simp

/-- Witness for C10 at the unit Packer, with a destination already owning a
different pointee. -/
theorem ptr_true_flag_fresh_witness :
    unpackVal unitPacker (.ptr .leaf) (.ptr (some (.leaf 42)))
        (unitPacker.pack 1 ++ [5])
      = (unpackVal unitPacker .leaf (defaultVal .leaf) [5]).map
          (fun pr => (Val.ptr (some pr.1), pr.2)) :=
  ptr_true_flag_fresh unitPacker unitPacker_inverts .leaf 1 (by decide)
    (.ptr (some (.leaf 42))) [5]

end OPM
